import Mathlib

/-!
Verification of the harper analysis core (Typst dialect tokenizer and
hunspell-style affix expansion) against its specification.

The Typst tokenizer (`Typst::parse` in `harper-core/src/parsers/typst.rs`)
is embedded as `typstStep` / `typstParseAux` / `typstParse` below.  The
external `typst_syntax` collaborator is abstracted as a leaf-lookup
function `Nat → Option Leaf`, matching the spec's collaborator contract
(`leaf_at_or_after(offset) -> {range, kind, text}`).

The `Span`, `Token` and base-tokenizer (`PlainEnglish`) types are repository
code not present in the source snapshot, so they are modelled from the
specification (sections 3, 4.1 and 4.2), as are the word-list reader,
condition matcher and expansion engine of the hunspell subsystem
(sections 4.4 to 4.6).
-/

/-- Modelled from the spec: `Span` (section 3) is a half-open
character-offset range `{start, end}`; `end` is spelled `stop` here because
`end` is a Lean keyword. -/
structure Span where
  start : Nat
  stop : Nat
deriving DecidableEq, Repr

/-- Modelled from the spec: `Span::new(start, end)` (section 4.1). -/
def Span.new (start stop : Nat) : Span := ⟨start, stop⟩

/-- Modelled from the spec: `Span::new_with_len(start, len)` (section 4.1)
builds the span `[start, start + len)`. -/
def Span.new_with_len (start len : Nat) : Span := ⟨start, start + len⟩

/-- Modelled from the spec: `shift(by)` translates both ends (section 3);
the source calls this helper `push_by`. -/
def Span.push_by (s : Span) (off : Nat) : Span := ⟨s.start + off, s.stop + off⟩

/-- Modelled from the spec: `TokenKind` (section 3) — the closed variant set
Word, Space(count), Newline(count), Punctuation(variant), Unlintable.  The
punctuation variant is represented by the punctuation character itself. -/
inductive TokenKind where
  | Word
  | Space (count : Nat)
  | Newline (count : Nat)
  | Punctuation (c : Char)
  | Unlintable
deriving DecidableEq, Repr

/-- Modelled from the spec: `Token` (section 3) is an immutable span plus
kind. -/
structure Token where
  span : Span
  kind : TokenKind
deriving DecidableEq, Repr

/-- The structural kind tag of a syntax-tree leaf.  The named constructors
are the `typst_syntax::SyntaxKind` values `Typst::parse` dispatches on;
`other` stands for every remaining member of that finite enumeration
(they all fall into the catch-all arm of the source's `match`). -/
inductive SyntaxKind where
  | Text
  | Space
  | Parbreak
  | Dollar
  | RawDelim
  | ListMarker
  | HeadingMarker
  | Underscore
  | Star
  | LeftBracket
  | RightBracket
  | MathIdent
  | other (tag : Nat)
deriving DecidableEq, Repr

/-- A leaf of the external syntax tree: its byte range `[start, stop)`, its
kind tag, and its covered text (the collaborator contract of section 6). -/
structure Leaf where
  start : Nat
  stop : Nat
  kind : SyntaxKind
  text : List Char
deriving DecidableEq, Repr

/-- Character slice `source[a..b]`, as used by the `SyntaxKind::Text` arm of
`Typst::parse`. -/
def sliceChars (source : List Char) (a b : Nat) : List Char :=
  (source.drop a).take (b - a)

/-- Number of occurrences of the character `c`, mirroring
`current_node.text().matches("\n").count()`. -/
def countChar (c : Char) (l : List Char) : Nat :=
  (l.filter (fun d => d = c)).length

/-- Character classes used by the base tokenizer of section 4.2. -/
inductive CharClass where
  | word
  | space
  | newline
  | punct
deriving DecidableEq, Repr

/-- Modelled from the spec: the base tokenizer's character classification
(section 4.2): alphabetic → word runs, newline characters → newline runs,
other whitespace → horizontal-space runs, everything else is treated as a
punctuation mark. -/
def charClassOf (c : Char) : CharClass :=
  if c.isAlpha then CharClass.word
  else if c = '\n' then CharClass.newline
  else if c.isWhitespace then CharClass.space
  else CharClass.punct

/-- Group a character sequence into maximal runs of one character class. -/
def classRuns : List Char → List (List Char)
  | [] => []
  | c :: rest =>
    match classRuns rest with
    | [] => [[c]]
    | [] :: gs => [c] :: [] :: gs
    | (d :: g) :: gs =>
      if charClassOf c = charClassOf d then (c :: d :: g) :: gs
      else [c] :: (d :: g) :: gs

/-- Modelled from the spec: tokens of one run (section 4.2) — a word run
becomes one Word token, a horizontal-whitespace run one Space(n), a newline
run one Newline(n), and punctuation marks one Punctuation token each. -/
def runTokens (off : Nat) : List Char → List Token
  | [] => []
  | c :: rest =>
    let len := rest.length + 1
    match charClassOf c with
    | CharClass.word => [⟨Span.new off (off + len), TokenKind.Word⟩]
    | CharClass.space => [⟨Span.new off (off + len), TokenKind.Space len⟩]
    | CharClass.newline => [⟨Span.new off (off + len), TokenKind.Newline len⟩]
    | CharClass.punct =>
      ((List.range len).zip (c :: rest)).map
        (fun p => ⟨Span.new (off + p.1) (off + p.1 + 1), TokenKind.Punctuation p.2⟩)

def plainEnglishAux (off : Nat) : List (List Char) → List Token
  | [] => []
  | g :: gs => runTokens off g ++ plainEnglishAux (off + g.length) gs

/-- Modelled from the spec: the base tokenizer `PlainEnglish::parse`
(section 4.2), which `Typst::parse` delegates prose spans to.  Its code is
not in the source snapshot; only its contract and per-class behaviour are
specified. -/
def plainEnglish (source : List Char) : List Token :=
  plainEnglishAux 0 (classRuns source)

/-- One iteration of the `while` loop of `Typst::parse`
(`harper-core/src/parsers/typst.rs`, lines 25–107): given the active
disable-linting target and the cursor, process the current leaf and return
the emitted tokens together with the new disable target.  The cursor always
advances to `leaf.stop` afterwards (line 106 / the `continue` branches).
Note the source builds the Unlintable spans of the disable branches and the
`Dollar | RawDelim` branch with `Span::new_with_len(cursor, range.end)`. -/
def typstStep (source : List Char) (disable : Option SyntaxKind) (cursor : Nat)
    (leaf : Leaf) : List Token × Option SyntaxKind :=
  match disable with
  | some t =>
    if t = leaf.kind then
      ([⟨Span.new_with_len cursor leaf.stop, TokenKind.Unlintable⟩], none)
    else
      ([⟨Span.new_with_len cursor leaf.stop, TokenKind.Unlintable⟩], some t)
  | none =>
    match leaf.kind with
    | SyntaxKind.Text =>
      ((plainEnglish (sliceChars source leaf.start leaf.stop)).map
        (fun tok => { tok with span := tok.span.push_by leaf.start }), none)
    | SyntaxKind.Space | SyntaxKind.Parbreak =>
      let count := countChar '\n' leaf.text
      if count > 0 then
        ([⟨Span.new cursor leaf.stop, TokenKind.Newline (count + 1)⟩], none)
      else
        ([⟨Span.new cursor leaf.stop, TokenKind.Space (leaf.stop - cursor)⟩], none)
    | SyntaxKind.Dollar | SyntaxKind.RawDelim =>
      ([⟨Span.new_with_len cursor leaf.stop, TokenKind.Unlintable⟩], some leaf.kind)
    | SyntaxKind.ListMarker | SyntaxKind.HeadingMarker | SyntaxKind.Underscore
    | SyntaxKind.Star | SyntaxKind.LeftBracket | SyntaxKind.RightBracket =>
      ([⟨Span.new cursor leaf.stop, TokenKind.Unlintable⟩], none)
    | _ => ([⟨Span.new cursor leaf.stop, TokenKind.Unlintable⟩], none)

/-- The `while cursor < source_node_length` loop of `Typst::parse`, with an
explicit fuel so the model is total even for a collaborator that makes no
progress.  `leafAt` abstracts `root_node.leaf_at(cursor, Side::After)`; a
`none` lookup models the source's `.unwrap()` failing. -/
def typstParseAux (leafAt : Nat → Option Leaf) (len : Nat) (source : List Char) :
    Nat → Nat → Option SyntaxKind → List Token → Option (List Token)
  | 0, cursor, _, acc => if cursor < len then none else some acc
  | fuel + 1, cursor, disable, acc =>
    if cursor < len then
      match leafAt cursor with
      | none => none
      | some leaf =>
        let r := typstStep source disable cursor leaf
        typstParseAux leafAt len source fuel leaf.stop r.2 (acc ++ r.1)
    else some acc

/-- `Typst::parse`: cursor starts at 0, no disable target, empty output.
Since every productive iteration advances the cursor by at least one
character, `len + 1` units of fuel are enough for any collaborator that
makes progress. -/
def typstParse (leafAt : Nat → Option Leaf) (len : Nat) (source : List Char) :
    Option (List Token) :=
  typstParseAux leafAt len source (len + 1) 0 none []

/-- `leaf_at(c, Side::After)` over an ordered leaf list: the first leaf
whose end lies strictly after `c`. -/
def leaf_at (ls : List Leaf) (c : Nat) : Option Leaf :=
  ls.find? (fun l => decide (c < l.stop))

/-- The collaborator makes progress at `c`: the lookup succeeds and the
returned leaf ends strictly after `c`. -/
def progressAt (leafAt : Nat → Option Leaf) (c : Nat) : Bool :=
  match leafAt c with
  | none => false
  | some l => decide (c < l.stop)

/-- The leaves of the `typst_syntax` tree for the source `"$x$"`:
an equation delimited by two `Dollar` leaves around a `MathIdent` leaf. -/
def leavesDollarX : List Leaf :=
  [⟨0, 1, SyntaxKind.Dollar, ['$']⟩,
   ⟨1, 2, SyntaxKind.MathIdent, ['x']⟩,
   ⟨2, 3, SyntaxKind.Dollar, ['$']⟩]

/-- The character sequence `"$x$"`. -/
def srcDollarX : List Char := ['$', 'x', '$']

/-- A collaborator that keeps returning a zero-width leaf at offset 0,
the degenerate behaviour the spec says the source has no guard against. -/
def badLeafAt : Nat → Option Leaf :=
  fun _ => some ⟨0, 0, SyntaxKind.other 0, []⟩

/-- A single ordinary three-character leaf, used to exercise the
termination theorem at a concrete progressive collaborator. -/
def goodLeaves : List Leaf := [⟨0, 3, SyntaxKind.other 7, ['a', 'b', 'c']⟩]

/-- Modelled from the spec: `WordMetadata` — part-of-speech/tense-like tags
carried by dictionary entries (section 3).  The test rule tables set both
fields to null, so an abstract payload suffices. -/
structure WordMetadata where
  kind : Option Nat
  tense : Option Nat
deriving DecidableEq, Repr

/-- The metadata with no tags set (the JSON `{"kind": null, "tense": null}`). -/
def WordMetadata.empty : WordMetadata := ⟨none, none⟩

/-- Modelled from the spec: the field-granular associative metadata merge
(section 4.6); the concrete conflict rule chosen here is
first-contribution-wins per field. -/
def WordMetadata.merge (a b : WordMetadata) : WordMetadata :=
  ⟨a.kind.orElse (fun _ => b.kind), a.tense.orElse (fun _ => b.tense)⟩

/-- Modelled from the spec: `MarkedWord` — a base word (`letters`, matching
the source's `CharString`) plus its flag identifiers (section 3). -/
structure MarkedWord where
  letters : List Char
  attributes : List Char
deriving DecidableEq, Repr

/-- Split a character sequence at every occurrence of `sep`. -/
def splitOnChar (sep : Char) : List Char → List (List Char)
  | [] => [[]]
  | c :: rest =>
    match splitOnChar sep rest with
    | [] => [[c]]
    | g :: gs => if c = sep then [] :: g :: gs else (c :: g) :: gs

/-- Leading and trailing horizontal whitespace removed. -/
def trimChars (l : List Char) : List Char :=
  ((l.dropWhile Char.isWhitespace).reverse.dropWhile Char.isWhitespace).reverse

/-- Modelled from the spec: one line of the word-list format (section 4.4):
`word` or `word/FLAGS`; an empty word is a format error. -/
def parse_word_line (l : List Char) : Option MarkedWord :=
  let trimmed := trimChars l
  let word := trimmed.takeWhile (fun c => ¬ c = '/')
  let rest := trimmed.dropWhile (fun c => ¬ c = '/')
  if word.isEmpty then none
  else
    match rest with
    | [] => some ⟨word, []⟩
    | _ :: flags => some ⟨word, flags⟩

/-- Modelled from the spec: the word-list reader `parse_word_list`
(section 4.4): line 1 is an informational decimal count, each later
non-blank line is `word` or `word/FLAGS`; blank lines are tolerated and a
malformed line fails the load. -/
def parse_word_list (s : List Char) : Option (List MarkedWord) :=
  match splitOnChar '\n' s with
  | [] => some []
  | _count :: rest =>
    (rest.filter (fun l => ¬ (trimChars l).isEmpty)).mapM parse_word_line

/-- One unit of a compiled affix condition: a wildcard, a character class,
or a negated character class. -/
inductive CondUnit where
  | dot
  | clsIn (cs : List Char)
  | clsOut (cs : List Char)
deriving DecidableEq, Repr

/-- Modelled from the spec: the condition pattern compiler (section 4.5).
The accumulator `inClass` is `some (neg, acc)` while scanning a bracketed
character class; an unclosed bracket is a pattern error (`none`). -/
def compileCondAux : Option (Bool × List Char) → List Char → Option (List CondUnit)
  | none, [] => some []
  | some _, [] => none
  | none, '[' :: '^' :: rest => compileCondAux (some (true, [])) rest
  | none, '[' :: rest => compileCondAux (some (false, [])) rest
  | none, '.' :: rest => (compileCondAux none rest).map (fun us => CondUnit.dot :: us)
  | none, c :: rest => (compileCondAux none rest).map (fun us => CondUnit.clsIn [c] :: us)
  | some (neg, acc), ']' :: rest =>
    (compileCondAux none rest).map
      (fun us => (if neg then CondUnit.clsOut acc.reverse else CondUnit.clsIn acc.reverse) :: us)
  | some (neg, acc), c :: rest => compileCondAux (some (neg, c :: acc)) rest

/-- Modelled from the spec: pre-compile one condition pattern into an
executable matcher (section 4.5); fails on a malformed pattern. -/
def compileCondition (s : List Char) : Option (List CondUnit) :=
  compileCondAux none s

/-- Does one condition unit accept a character? -/
def condUnitMatches : CondUnit → Char → Bool
  | CondUnit.dot, _ => true
  | CondUnit.clsIn cs, c => cs.contains c
  | CondUnit.clsOut cs, c => ! cs.contains c

/-- Modelled from the spec: a compiled condition of `k` units matches the
trailing `k` characters of the word for a suffix rule (`atEnd = true`) or
its leading `k` characters for a prefix rule; a word shorter than the
condition never matches.  Per the expected expansion sets of section 8 the
condition is checked against the base word's edge. -/
def condMatches (units : List CondUnit) (word : List Char) (atEnd : Bool) : Bool :=
  let k := units.length
  if word.length < k then false
  else
    let edge := if atEnd then word.drop (word.length - k) else word.take k
    (units.zip edge).all (fun p => condUnitMatches p.1 p.2)

/-- Modelled from the spec: `Replacement` {remove, add, condition}
(section 3), with the condition already compiled. -/
structure AffixReplacement where
  remove : List Char
  add : List Char
  condition : List CondUnit
deriving DecidableEq, Repr

/-- Modelled from the spec: `AffixRule` {is_suffix, cross_product, ordered
replacements, metadata delta} (section 3); the source calls this an
`Expansion` with a `suffix` flag. -/
structure Expansion where
  suffix : Bool
  crossProduct : Bool
  replacements : List AffixReplacement
  addsMetadata : WordMetadata
deriving DecidableEq, Repr

/-- Modelled from the spec: `AttributeList` — the mapping from flag
identifier to affix rule (section 3), as an association list. -/
abbrev AttributeList : Type := List (Char × Expansion)

/-- Resolve a flag in the rule table. -/
def lookupAttr (t : AttributeList) (f : Char) : Option Expansion :=
  (t.find? (fun p => p.1 = f)).map (fun p => p.2)

/-- Modelled from the spec: a replacement as authored, with the condition
still a pattern string (the `HumanReadableAttributeList` layer). -/
structure HumanReplacement where
  remove : List Char
  add : List Char
  condition : List Char
deriving DecidableEq, Repr

/-- Modelled from the spec: a rule as authored in the resource format of
section 6. -/
structure HumanExpansion where
  suffix : Bool
  crossProduct : Bool
  replacements : List HumanReplacement
  addsMetadata : WordMetadata
deriving DecidableEq, Repr

/-- Modelled from the spec: `to_normal` (section 4.5) — compile every
condition once at load time; any malformed condition fails the entire
rule-table load. -/
def HumanExpansion.to_normal (h : HumanExpansion) : Option Expansion :=
  (h.replacements.mapM
      (fun r => (compileCondition r.condition).map
        (fun us => AffixReplacement.mk r.remove r.add us))).map
    (fun rs => ⟨h.suffix, h.crossProduct, rs, h.addsMetadata⟩)

/-- Modelled from the spec: normalize a whole authored rule table, failing
if any rule fails (section 4.5). -/
def to_normal (hs : List (Char × HumanExpansion)) : Option AttributeList :=
  hs.mapM (fun p => p.2.to_normal.map (fun e => (p.1, e)))

/-- Modelled from the spec: apply one replacement to a word (section 4.6):
if the condition matches the relevant edge, strip `remove` from that edge
(the rule contributes nothing if `remove` is not present there) and attach
`add`. -/
def applyReplacement (r : AffixReplacement) (word : List Char) (sfx : Bool) :
    Option (List Char) :=
  if condMatches r.condition word sfx then
    if sfx then
      if r.remove.isSuffixOf word then
        some (word.take (word.length - r.remove.length) ++ r.add)
      else none
    else
      if r.remove.isPrefixOf word then
        some (r.add ++ word.drop r.remove.length)
      else none
  else none

/-- Modelled from the spec: all derived forms of one rule on one word —
every matching replacement fires, in declared order (section 3). -/
def expansionForms (e : Expansion) (word : List Char) : List (List Char) :=
  e.replacements.filterMap (fun r => applyReplacement r word e.suffix)

/-- Modelled from the spec: the forms contributed by a single flag
(section 4.6 step 2); an unresolvable flag contributes nothing. -/
def single_forms (t : AttributeList) (word : List Char) (f : Char) :
    List (List Char × WordMetadata) :=
  match lookupAttr t f with
  | none => []
  | some e => (expansionForms e word).map (fun d => (d, e.addsMetadata))

/-- Modelled from the spec: the suffix side of a cross product
(section 4.6 step 3): apply every matching replacement of the suffix flag
`fs` to each prefix-derived form. -/
def cross_inner (t : AttributeList) (word : List Char) (ep : Expansion) (fs : Char) :
    List (List Char × WordMetadata) :=
  match lookupAttr t fs with
  | none => []
  | some es =>
    if es.suffix && es.crossProduct then
      (expansionForms ep word).flatMap
        (fun dp => (expansionForms es dp).map
          (fun d => (d, WordMetadata.merge ep.addsMetadata es.addsMetadata)))
    else []

/-- Modelled from the spec: the cross-product forms seeded by one
prefix-class flag `fp` (section 4.6 step 3) — combinatorial only across one
prefix flag and one suffix flag sharing the word. -/
def cross_forms (t : AttributeList) (word : List Char) (attrs : List Char) (fp : Char) :
    List (List Char × WordMetadata) :=
  match lookupAttr t fp with
  | none => []
  | some ep =>
    if !ep.suffix && ep.crossProduct then attrs.flatMap (cross_inner t word ep)
    else []

/-- Modelled from the spec: `expand_marked_word` (section 4.6): the base
word with its base metadata, the per-flag derived forms, and the
prefix × suffix cross-product forms. -/
def expand_marked_word (t : AttributeList) (w : MarkedWord) :
    List (List Char × WordMetadata) :=
  (w.letters, WordMetadata.empty) ::
    (w.attributes.flatMap (single_forms t w.letters) ++
      w.attributes.flatMap (cross_forms t w.letters w.attributes))

/-- Insert one expanded form into the output dictionary, merging metadata
when the key already exists (section 4.6). -/
def insertWord (m : List (List Char × WordMetadata)) (kv : List Char × WordMetadata) :
    List (List Char × WordMetadata) :=
  if m.any (fun p => p.1 = kv.1) then
    m.map (fun p => if p.1 = kv.1 then (p.1, p.2.merge kv.2) else p)
  else m ++ [kv]

/-- Modelled from the spec: `expand_marked_words` (section 4.6) — fold every
marked word's expansion into the shared output dictionary. -/
def expand_marked_words (t : AttributeList) (ws : List MarkedWord) :
    List (List Char × WordMetadata) :=
  ws.foldl (fun m w => (expand_marked_word t w).foldl insertWord m) []

/-- The key set of an output dictionary. -/
def dict_keys (m : List (List Char × WordMetadata)) : List (List Char) :=
  m.map (fun p => p.1)

/-- The word-list resource of the `correctly_expands_test_files` test. -/
def wordListC3 : List Char := "3\nhello\ntry/B\nwork/AB".toList

/-- The marked words that word list denotes. -/
def wordsC3 : List MarkedWord :=
  [⟨"hello".toList, []⟩, ⟨"try".toList, ['B']⟩, ⟨"work".toList, ['A', 'B']⟩]

/-- The two-rule authored table of that test: flag A is a cross-product
prefix rule adding "re" under condition ".", flag B a cross-product suffix
rule adding "ed" under condition "[^y]" or replacing "y" by "ied" under
condition "y". -/
def humanC3 : List (Char × HumanExpansion) :=
  [('A', ⟨false, true, [⟨[], "re".toList, ".".toList⟩], WordMetadata.empty⟩),
   ('B', ⟨true, true,
      [⟨[], "ed".toList, "[^y]".toList⟩, ⟨['y'], "ied".toList, "y".toList⟩],
      WordMetadata.empty⟩)]

/-- The same table with its conditions compiled. -/
def tableC3 : AttributeList :=
  [('A', ⟨false, true, [⟨[], "re".toList, [CondUnit.dot]⟩], WordMetadata.empty⟩),
   ('B', ⟨true, true,
      [⟨[], "ed".toList, [CondUnit.clsOut ['y']]⟩,
       ⟨['y'], "ied".toList, [CondUnit.clsIn ['y']]⟩],
      WordMetadata.empty⟩)]

/-- The expected expansion set of section 8. -/
def sevenC3 : List (List Char) :=
  ["hello".toList, "tried".toList, "reworked".toList, "rework".toList,
   "worked".toList, "work".toList, "try".toList]

/-- The word-list resource of the `plural_giants` test. -/
def wordListC6 : List Char := "1\ngiant/SM".toList

/-- The marked word that list denotes. -/
def wordsC6 : List MarkedWord := [⟨"giant".toList, ['S', 'M']⟩]

/-- The authored table of the `plural_giants` test: suffix rule S
(pluralize, three conditional replacements) and suffix rule M (possessive:
add apostrophe-s, written with `Char.ofNat 39`, under condition "."). -/
def humanC6 : List (Char × HumanExpansion) :=
  [('S', ⟨true, true,
      [⟨['y'], "ies".toList, "[^aeiou]".toList⟩,
       ⟨[], ['s'], "[aeiou]y".toList⟩,
       ⟨[], ['s'], "[^sxzhy]".toList⟩],
      WordMetadata.empty⟩),
   ('M', ⟨true, true, [⟨[], [Char.ofNat 39, 's'], ".".toList⟩], WordMetadata.empty⟩)]

/-- The same table with its conditions compiled. -/
def tableC6 : AttributeList :=
  [('S', ⟨true, true,
      [⟨['y'], "ies".toList, [CondUnit.clsOut "aeiou".toList]⟩,
       ⟨[], ['s'], [CondUnit.clsIn "aeiou".toList, CondUnit.clsIn ['y']]⟩,
       ⟨[], ['s'], [CondUnit.clsOut "sxzhy".toList]⟩],
      WordMetadata.empty⟩),
   ('M', ⟨true, true, [⟨[], [Char.ofNat 39, 's'], [CondUnit.dot]⟩], WordMetadata.empty⟩)]

/-- A marked word carrying the resolvable flags A and B of `tableC3` plus
the unresolvable flag Z. -/
def markedWorkZ : MarkedWord := ⟨"work".toList, ['A', 'B', 'Z']⟩

/-- C1: the tokenizer contract fails on the code.  On the input `"$x$"`
(typst leaves: Dollar `[0,1)`, MathIdent `[1,2)`, Dollar `[2,3)`) the parse
returns Unlintable spans `[0,1)`, `[1,3)`, `[2,5)`: the final span's end is
5, not the input length 3, because the disable-region and delimiter
branches call `Span::new_with_len(cursor, range.end)`, passing the leaf's
end offset where a length is expected. -/
theorem c1_final_span_end_bug :
    typstParse (leaf_at leavesDollarX) 3 srcDollarX =
      some [⟨⟨0, 1⟩, TokenKind.Unlintable⟩,
            ⟨⟨1, 3⟩, TokenKind.Unlintable⟩,
            ⟨⟨2, 5⟩, TokenKind.Unlintable⟩] ∧
    ¬ (5 = 3) := ⟨by decide, by decide⟩

/-- C2: the Unlintable span claim fails on the code.  With the cursor at 1
and a leaf ending at 2, all three Unlintable-emitting situations (interior
of an open region, the closing delimiter, and a region-opening delimiter)
emit the span `[1, 3)` — `[cursor, cursor + leaf.end)` — rather than the
claimed `[1, 2)` = `[cursor, leaf.end)`. -/
theorem c2_unlintable_span_bug :
    typstStep srcDollarX (some SyntaxKind.Dollar) 1 ⟨1, 2, SyntaxKind.MathIdent, ['x']⟩ =
      ([⟨Span.new 1 3, TokenKind.Unlintable⟩], some SyntaxKind.Dollar) ∧
    typstStep srcDollarX (some SyntaxKind.Dollar) 1 ⟨1, 2, SyntaxKind.Dollar, ['$']⟩ =
      ([⟨Span.new 1 3, TokenKind.Unlintable⟩], none) ∧
    typstStep srcDollarX none 1 ⟨1, 2, SyntaxKind.Dollar, ['$']⟩ =
      ([⟨Span.new 1 3, TokenKind.Unlintable⟩], some SyntaxKind.Dollar) ∧
    ¬ (Span.new 1 3 = Span.new 1 2) := ⟨by decide, by decide, by decide, by decide⟩

/-- C3: expanding the word list `"3\nhello\ntry/B\nwork/AB"` with the
two-rule table (A: cross-product prefix "re" under "."; B: cross-product
suffix "ed" under "[^y]" or "y"→"ied" under "y") yields exactly the key set
{hello, tried, reworked, rework, worked, work, try}, stated
order-independently as a membership equivalence. -/
theorem c3_expansion_exact_seven :
    parse_word_list wordListC3 = some wordsC3 ∧
    to_normal humanC3 = some tableC3 ∧
    ∀ w : List Char,
      w ∈ dict_keys (expand_marked_words tableC3 wordsC3) ↔ w ∈ sevenC3 := by
  refine ⟨by decide, by decide, fun w => ⟨fun h => ?_, fun h => ?_⟩⟩
  · exact (by decide :
      ∀ x ∈ dict_keys (expand_marked_words tableC3 wordsC3), x ∈ sevenC3) w h
  · exact (by decide :
      ∀ x ∈ sevenC3, x ∈ dict_keys (expand_marked_words tableC3 wordsC3)) w h

/-- C4: a horizontal-space leaf processed outside a disable region emits
exactly one token spanning `[cursor, leaf.end)`: `Newline(n + 1)` when the
leaf's text contains `n ≥ 1` newline characters, `Space(leaf.end − cursor)`
otherwise. -/
theorem c4_space_leaf_emission (source : List Char) (cursor s e : Nat) (t : List Char) :
    typstStep source none cursor ⟨s, e, SyntaxKind.Space, t⟩ =
      ([⟨Span.new cursor e,
         if 0 < countChar '\n' t then TokenKind.Newline (countChar '\n' t + 1)
         else TokenKind.Space (e - cursor)⟩], none) := by
  by_cases h : 0 < countChar '\n' t <;> simp [typstStep, h]

/-- C5: the disable mechanism is a 2-state machine with a single active
region and no stack: with target K active, a leaf of kind K emits
Unlintable and clears the target (so a second same-kind opening delimiter
closes rather than nests), any other leaf emits Unlintable and keeps the
target, and with no target active a Dollar or RawDelim leaf emits
Unlintable and sets the target to its own kind. -/
theorem c5_disable_two_state (source : List Char) (cursor : Nat) (leaf : Leaf)
    (K : SyntaxKind) :
    (leaf.kind = K →
      typstStep source (some K) cursor leaf =
        ([⟨Span.new_with_len cursor leaf.stop, TokenKind.Unlintable⟩], none)) ∧
    (¬ leaf.kind = K →
      typstStep source (some K) cursor leaf =
        ([⟨Span.new_with_len cursor leaf.stop, TokenKind.Unlintable⟩], some K)) ∧
    (∀ s e t, typstStep source none cursor ⟨s, e, SyntaxKind.Dollar, t⟩ =
        ([⟨Span.new_with_len cursor e, TokenKind.Unlintable⟩], some SyntaxKind.Dollar) ∧
      typstStep source none cursor ⟨s, e, SyntaxKind.RawDelim, t⟩ =
        ([⟨Span.new_with_len cursor e, TokenKind.Unlintable⟩], some SyntaxKind.RawDelim)) := by
  refine ⟨fun hk => ?_, fun hk => ?_, fun s e t => ⟨rfl, rfl⟩⟩
  · simp [typstStep, hk]
  · have hk2 : ¬ K = leaf.kind := fun h => hk h.symm
    simp [typstStep, hk2]

/-- C5 witness: with the Dollar target active, a second Dollar leaf (an
opening delimiter kind) closes the region. -/
theorem c5_disable_two_state_witness :
    (Leaf.mk 1 2 SyntaxKind.Dollar ['$']).kind = SyntaxKind.Dollar ∧
    typstStep srcDollarX (some SyntaxKind.Dollar) 1 ⟨1, 2, SyntaxKind.Dollar, ['$']⟩ =
      ([⟨Span.new_with_len 1 2, TokenKind.Unlintable⟩], none) :=
  ⟨rfl,
   (c5_disable_two_state srcDollarX 1 ⟨1, 2, SyntaxKind.Dollar, ['$']⟩
      SyntaxKind.Dollar).1 rfl⟩

/-- C6: the marked word `giant/SM` with suffix rules S (pluralize, third
replacement adds "s" under "[^sxzhy]") and M (possessive) produces a
dictionary containing the key "giants". -/
theorem c6_plural_giants :
    parse_word_list wordListC6 = some wordsC6 ∧
    to_normal humanC6 = some tableC6 ∧
    "giants".toList ∈ dict_keys (expand_marked_words tableC6 wordsC6) :=
  ⟨by decide, by decide, by decide⟩

/-- Dropping the elements on which `g` is empty from the flattened list
changes nothing. -/
theorem flatMap_filter_ne {β : Type} (l : List Char) (g : Char → List β) (f : Char)
    (hg : g f = []) :
    (l.filter (fun x => ! (x == f))).flatMap g = l.flatMap g := by
  induction l with
  | nil => rfl
  | cons a l ih =>
    by_cases h : a = f
    · subst h
      simp [List.filter_cons, hg, ih]
    · simp [List.filter_cons, h, ih]

/-- C7: a marked word carrying an unresolvable flag still yields its base
word, and its expansion is unchanged when the unresolvable flag is removed
— the flag contributes no derived forms and suppresses nothing.  (The
expansion is a total function of its inputs, so it cannot fail and is
deterministic by construction.) -/
theorem c7_unresolved_flag (t : AttributeList) (w : MarkedWord) (f : Char)
    (_hmem : f ∈ w.attributes) (hf : lookupAttr t f = none) :
    w.letters ∈ (expand_marked_word t w).map Prod.fst ∧
    expand_marked_word t w =
      expand_marked_word t ⟨w.letters, w.attributes.filter (fun g => ! (g == f))⟩ := by
  have hsingle : single_forms t w.letters f = [] := by simp [single_forms, hf]
  have hinner : ∀ ep, cross_inner t w.letters ep f = [] := by
    intro ep; simp [cross_inner, hf]
  have hcrossf : ∀ attrs, cross_forms t w.letters attrs f = [] := by
    intro attrs; simp [cross_forms, hf]
  have hcong : ∀ fp,
      cross_forms t w.letters (w.attributes.filter (fun g => ! (g == f))) fp =
        cross_forms t w.letters w.attributes fp := by
    intro fp
    unfold cross_forms
    cases hl : lookupAttr t fp with
    | none => rfl
    | some ep =>
      by_cases hcp : (! ep.suffix && ep.crossProduct) = true
      · simp only [hcp, if_true]
        exact flatMap_filter_ne w.attributes (cross_inner t w.letters ep) f (hinner ep)
      · simp [hcp]
  constructor
  · exact List.mem_map_of_mem Prod.fst (List.mem_cons_self _ _)
  · unfold expand_marked_word
    simp only [List.cons.injEq, true_and]
    congr 1
    · exact (flatMap_filter_ne w.attributes (single_forms t w.letters) f hsingle).symm
    · have h1 : (w.attributes.filter (fun g => ! (g == f))).flatMap
          (cross_forms t w.letters (w.attributes.filter (fun g => ! (g == f)))) =
            (w.attributes.filter (fun g => ! (g == f))).flatMap
              (cross_forms t w.letters w.attributes) := by
        rw [funext hcong]
      rw [h1, flatMap_filter_ne w.attributes (cross_forms t w.letters w.attributes) f
        (hcrossf w.attributes)]

/-- C7 witness: `work/ABZ` against the table that resolves only A and B. -/
theorem c7_unresolved_flag_witness :
    'Z' ∈ markedWorkZ.attributes ∧ lookupAttr tableC3 'Z' = none ∧
    ("work".toList ∈ (expand_marked_word tableC3 markedWorkZ).map Prod.fst ∧
      expand_marked_word tableC3 markedWorkZ =
        expand_marked_word tableC3
          ⟨"work".toList, markedWorkZ.attributes.filter (fun g => ! (g == 'Z'))⟩) :=
  ⟨by decide, by decide,
   c7_unresolved_flag tableC3 markedWorkZ 'Z' (by decide) (by decide)⟩

/-- With the zero-width collaborator the loop body never advances the
cursor, so no amount of fuel completes the parse. -/
theorem badLeafAt_spin (fuel : Nat) (acc : List Token) :
    typstParseAux badLeafAt 1 [] fuel 0 none acc = none := by
  induction fuel generalizing acc with
  | zero => rfl
  | succ n ih => exact ih (acc ++ [⟨Span.new 0 0, TokenKind.Unlintable⟩])

/-- C9 counterexample: the main loop does not terminate for every
collaborator behaviour — when the collaborator keeps returning a
zero-width leaf at offset 0 the cursor never advances, so the loop never
reaches the source length: no fuel bound makes the parse complete. -/
theorem c9_zero_width_divergence :
    ¬ ∃ fuel, (typstParseAux badLeafAt 1 [] fuel 0 none []).isSome = true := by
  rintro ⟨fuel, h⟩
  rw [badLeafAt_spin fuel []] at h
  exact Bool.noConfusion h

/-- Every productive iteration strictly advances the cursor, so
`len - cursor` bounds the remaining iterations. -/
theorem typstParseAux_total (leafAt : Nat → Option Leaf) (len : Nat) (source : List Char)
    (h : ∀ c, c < len → progressAt leafAt c = true) :
    ∀ fuel cursor disable acc, len ≤ cursor + fuel →
      (typstParseAux leafAt len source fuel cursor disable acc).isSome = true := by
  intro fuel
  induction fuel with
  | zero =>
    intro cursor disable acc hle
    have hc : ¬ cursor < len := by omega
    simp [typstParseAux, hc]
  | succ n ih =>
    intro cursor disable acc hle
    by_cases hc : cursor < len
    · have hp := h cursor hc
      unfold progressAt at hp
      cases hl : leafAt cursor with
      | none => rw [hl] at hp; exact Bool.noConfusion hp
      | some leaf =>
        rw [hl] at hp
        have hstop : cursor < leaf.stop := of_decide_eq_true hp
        simp only [typstParseAux, hc, if_true, hl]
        exact ih leaf.stop _ _ (by omega)
    · simp [typstParseAux, hc]

/-- C9 amended: the main loop terminates (the cursor strictly increases
each iteration until it reaches the source length) provided the
collaborator, at every cursor position below the source length, returns a
leaf whose end is strictly greater than the cursor; the source has no
guard for a collaborator violating this. -/
theorem c9_terminates_with_progress (leafAt : Nat → Option Leaf) (len : Nat)
    (source : List Char) (h : ∀ c, c < len → progressAt leafAt c = true) :
    (typstParse leafAt len source).isSome = true :=
  typstParseAux_total leafAt len source h (len + 1) 0 none [] (by omega)

/-- C9 witness: a concrete progressive collaborator (one three-character
leaf) on a three-character source. -/
theorem c9_terminates_with_progress_witness :
    (∀ c, c < 3 → progressAt (leaf_at goodLeaves) c = true) ∧
    (typstParse (leaf_at goodLeaves) 3 ['a', 'b', 'c']).isSome = true :=
  ⟨by decide,
   c9_terminates_with_progress (leaf_at goodLeaves) 3 ['a', 'b', 'c'] (by decide)⟩

/-- C10: a Parbreak leaf outside a disable region is handled exactly like a
Space leaf — one `Newline(n + 1)` token when its text contains `n ≥ 1`
newline characters, one Space token otherwise, with no
paragraph-break-specific treatment of its own. -/
theorem c10_parbreak_same_as_space (source : List Char) (cursor s e : Nat)
    (t : List Char) :
    typstStep source none cursor ⟨s, e, SyntaxKind.Parbreak, t⟩ =
      typstStep source none cursor ⟨s, e, SyntaxKind.Space, t⟩ ∧
    typstStep source none cursor ⟨s, e, SyntaxKind.Parbreak, t⟩ =
      ([⟨Span.new cursor e,
         if 0 < countChar '\n' t then TokenKind.Newline (countChar '\n' t + 1)
         else TokenKind.Space (e - cursor)⟩], none) := by
  constructor
  · rfl
  · by_cases h : 0 < countChar '\n' t <;> simp [typstStep, h]
